import Mathlib

/-!
# Verification of the gene-melody sequence-analysis core

Shallow embedding of the sequence-analysis functions of `DNA.py`
(`clean_dna`, `base_counts_and_stats`, `find_motifs`,
`find_orfs_all_frames`, `summarize_orfs`) and proofs of the stated
properties.  Sequences are embedded as `List Char`; Python's real-valued
(float) arithmetic is embedded as exact rational arithmetic `ℚ`, with a
separate bit-exact IEEE-754 binary64 rounding model used where a claim is
sensitive to float rounding.
-/

namespace GeneMelody

/-- Keys of `BASE_NOTE_MAP` (`{'A': 60, 'T': 62, 'C': 64, 'G': 67}`), in
insertion order.  `clean_dna` keeps exactly the characters that are keys
of this dictionary. -/
def baseKeys : List Char := ['A', 'T', 'C', 'G']

/-- `clean_dna` (DNA.py lines 57-59): uppercase the input, keep only the
characters that are keys of `BASE_NOTE_MAP`. -/
def clean_dna (raw : List Char) : List Char :=
  (raw.map Char.toUpper).filter (fun c => decide (c ∈ baseKeys))

/-- `AVG_NT_DA = 330.0` (DNA.py line 52), as an exact rational. -/
def AVG_NT_DA : ℚ := 330

/-- Result record of `base_counts_and_stats`.  `counts` models the
`Counter`; `at_gc_ratio = none` models the `float('inf')` sentinel. -/
structure CompStats where
  counts : Char → Nat
  total : Nat
  gc_percent : ℚ
  at_percent : ℚ
  at_gc_ratio : Option ℚ
  mw_da : ℚ
  mw_kda : ℚ

/-- `base_counts_and_stats` (DNA.py lines 61-79), with Python float
division/multiplication embedded as exact rational arithmetic.
`total = len(dna) if dna else 1` is the divisor; the returned `"total"`
field is `len(dna)`. -/
def base_counts_and_stats (dna : List Char) : CompStats :=
  let totalDiv : ℚ := if dna.isEmpty then 1 else (dna.length : ℚ)
  let gc : Nat := dna.count 'G' + dna.count 'C'
  let ta : Nat := dna.count 'A' + dna.count 'T'
  let mw_da : ℚ := (dna.length : ℚ) * AVG_NT_DA
  { counts := fun c => dna.count c
    total := dna.length
    gc_percent := ((gc : ℚ) / totalDiv) * 100
    at_percent := ((ta : ℚ) / totalDiv) * 100
    at_gc_ratio := if 0 < gc then some ((ta : ℚ) / (gc : ℚ)) else none
    mw_da := mw_da
    mw_kda := mw_da / 1000 }

/-- One motif match, as appended by `find_motifs`:
`{"motif": motif, "start": idx + 1, "meaning": meaning}`. -/
structure MotifEntry where
  motif : List Char
  start : Nat
  meaning : String
deriving DecidableEq, Repr

/-- Python `dna.find(motif, start)` (used in DNA.py line 86): the least
index `≥ start` at which `motif` occurs as a substring of `dna`
(`none` models the `-1` "not found" result). -/
def findFrom (dna pat : List Char) (start : Nat) : Option Nat :=
  if start + pat.length ≤ dna.length then
    if (dna.drop start).take pat.length = pat then some start
    else findFrom dna pat (start + 1)
  else none
termination_by dna.length + 1 - start

/-- If `findFrom` returns an index, it is `≥ start` and the match fits in
`dna`. -/
theorem findFrom_bounds (dna pat : List Char) (start idx : Nat)
    (h : findFrom dna pat start = some idx) :
    start ≤ idx ∧ idx + pat.length ≤ dna.length := by
  induction start using findFrom.induct dna pat with
  | case1 s hle heq =>
      rw [findFrom, if_pos hle, if_pos heq] at h
      cases h
      exact ⟨Nat.le_refl _, hle⟩
  | case2 s hle heq ih =>
      rw [findFrom, if_pos hle, if_neg heq] at h
      have := ih h
      omega
  | case3 s hle =>
      rw [findFrom, if_neg hle] at h
      cases h

/-- The inner `while True` loop of `find_motifs` (DNA.py lines 84-90) for
one motif: repeatedly find the next occurrence, record it 1-based, resume
at the previous match index + 1. -/
def scanMotif (dna pat : List Char) (meaning : String) (start : Nat) :
    List MotifEntry :=
  match h : findFrom dna pat start with
  | none => []
  | some idx =>
      { motif := pat, start := idx + 1, meaning := meaning }
        :: scanMotif dna pat meaning (idx + 1)
termination_by dna.length + 1 - start
decreasing_by
  have := findFrom_bounds dna pat start idx h
  omega

/-- The `found` list of `find_motifs` before the final `sorted` call:
per-motif scans concatenated in table (insertion) order. -/
def foundEntries (dna : List Char) (motifs : List (List Char × String)) :
    List MotifEntry :=
  (motifs.map (fun mm => scanMotif dna mm.1 mm.2 0)).flatten

/-- Insertion step of a stable sort by `start`: the new element goes in
front of the first existing element whose `start` is not smaller. -/
def insertByStart (x : MotifEntry) : List MotifEntry → List MotifEntry
  | [] => [x]
  | y :: ys => if x.start ≤ y.start then x :: y :: ys else y :: insertByStart x ys

/-- Python's `sorted(found, key=lambda x: x["start"])` (DNA.py line 91):
a stable sort by the `start` field.  Python's `sorted` is specified to be
stable, and a stable sort by a total preorder key has a unique result, so
stable insertion sort is an exact model. -/
def sortByStart (l : List MotifEntry) : List MotifEntry :=
  l.foldr insertByStart []

/-- `find_motifs` (DNA.py lines 81-91). -/
def find_motifs (dna : List Char) (motifs : List (List Char × String)) :
    List MotifEntry :=
  sortByStart (foundEntries dna motifs)

/-- The fixed motif table `DNA_MEANINGS` (DNA.py lines 18-50), in source
insertion order. -/
def DNA_MEANINGS : List (List Char × String) :=
  [("TATAAA".toList, "TATA box (variant: TATAAA) — promoter element near TSS."),
   ("TATATA".toList, "TATA box (variant: TATATA) — promoter element near TSS."),
   ("TATATT".toList, "TATA box (variant: TATATT) — promoter element near TSS."),
   ("TATAAT".toList, "TATA box (variant: TATAAT) — promoter element near TSS."),
   ("TATGAA".toList, "TATA-like box (variant: TATGAA) — promoter element near TSS."),
   ("CAAT".toList, "CAAT box — TF-binding site (often ~50–200 bp upstream of TSS)."),
   ("CCAAT".toList, "CAAT box (CCAAT) — TF-binding site (~50–200 bp upstream of TSS)."),
   ("CAATT".toList, "CAAT box (CAATT) — TF-binding site (~50–200 bp upstream of TSS)."),
   ("CCATT".toList, "CAAT box (CCATT) — TF-binding site (~50–200 bp upstream of TSS)."),
   ("GGGCGG".toList, "GC box (GGGCGG) — GC-rich TF-binding site."),
   ("GGGAGG".toList, "GC box (GGGAGG) — GC-rich TF-binding site."),
   ("GGGCCG".toList, "GC box (GGGCCG) — GC-rich TF-binding site."),
   ("GCGGGG".toList, "GC box (GCGGGG) — GC-rich TF-binding site."),
   ("GAATTC".toList, "EcoRI restriction site (GAATTC)."),
   ("GGATCC".toList, "BamHI restriction site (GGATCC)."),
   ("AAGCTT".toList, "HindIII restriction site (AAGCTT)."),
   ("CTGCAG".toList, "PstI restriction site (CTGCAG)."),
   ("CCCGGG".toList, "SmaI restriction site (CCCGGG)."),
   ("GCGGCCGC".toList, "NotI restriction site (GCGGCCGC)."),
   ("TCTAGA".toList, "XbaI restriction site (TCTAGA)."),
   ("GCTAGC".toList, "NheI restriction site (GCTAGC)."),
   ("GGTACC".toList, "KpnI restriction site (GGTACC)."),
   ("GAGCTC".toList, "SacI restriction site (GAGCTC).")]

/-- `STOP_CODONS = {"TAA", "TAG", "TGA"}` (DNA.py line 51). -/
def STOP_CODONS : List (List Char) := ["TAA".toList, "TAG".toList, "TGA".toList]

/-- `dna[i:i+3]` for `i + 3 ≤ len(dna)`: the codon starting at 0-based
index `i`. -/
def codonAt (dna : List Char) (i : Nat) : List Char := (dna.drop i).take 3

/-- One ORF record as appended by `find_orfs_all_frames`; `endPos` models
the dict key `"end"` (a reserved word in Lean). -/
structure ORFEntry where
  frame : Nat
  start : Nat
  endPos : Nat
  length_nt : Nat
  length_aa : Nat
deriving DecidableEq, Repr

/-- The inner stop-search loop of `find_orfs_all_frames`
(DNA.py lines 101-115): from index `j` step by 3 while `j + 3 <= n`,
returning the first index whose codon is a stop codon. -/
def scanStop (dna : List Char) (j : Nat) : Option Nat :=
  if j + 3 ≤ dna.length then
    if codonAt dna j ∈ STOP_CODONS then some j
    else scanStop dna (j + 3)
  else none
termination_by dna.length - j

/-- The outer codon scan of `find_orfs_all_frames` for one frame
(DNA.py lines 97-118): at each in-frame index `i` with `i + 3 <= n`, if
the codon is `ATG` run the stop-search from `i` and emit an entry when a
stop is found; in every case resume at `i + 3`. -/
def orfScan (dna : List Char) (frame i : Nat) : List ORFEntry :=
  if i + 3 ≤ dna.length then
    if codonAt dna i = "ATG".toList then
      match scanStop dna i with
      | some j =>
          { frame := frame, start := i + 1, endPos := j + 3,
            length_nt := (j + 3) - i, length_aa := ((j + 3) - i) / 3 }
            :: orfScan dna frame (i + 3)
      | none => orfScan dna frame (i + 3)
    else orfScan dna frame (i + 3)
  else []
termination_by dna.length - i

/-- `find_orfs_all_frames` (DNA.py lines 93-119): the three per-frame
scans appended in frame order 0, 1, 2. -/
def find_orfs_all_frames (dna : List Char) : List ORFEntry :=
  orfScan dna 0 0 ++ orfScan dna 1 1 ++ orfScan dna 2 2

/-- Python `max(orfs, key=lambda o: o["length_nt"])` (DNA.py line 124)
on a nonempty list: fold keeping the current maximum, replacing it only
on a strictly larger key, so the first maximum wins ties. -/
def longestOrf : List ORFEntry → Option ORFEntry
  | [] => none
  | x :: xs =>
      some (xs.foldl (fun cur y => if cur.length_nt < y.length_nt then y else cur) x)

/-- `summarize_orfs` (DNA.py lines 121-128). -/
def summarize_orfs (orfs : List ORFEntry) : String :=
  match longestOrf orfs with
  | none => "No ORFs found."
  | some l =>
      "Total ORFs: " ++ toString orfs.length ++ "\n" ++
      "Longest ORF: frame " ++ toString l.frame ++ " start " ++ toString l.start ++
      " end " ++ toString l.endPos ++ " (" ++ toString l.length_nt ++ " nt / " ++
      toString l.length_aa ++ " aa)"

/-- `pat` occurs in `dna` at 0-based index `k`. -/
def matchAt (dna pat : List Char) (k : Nat) : Prop :=
  k + pat.length ≤ dna.length ∧ (dna.drop k).take pat.length = pat

instance (dna pat : List Char) (k : Nat) : Decidable (matchAt dna pat k) := by
  unfold matchAt; infer_instance

/-- A sequence is cleaned when all of its characters are among the four
valid bases. -/
def Cleaned (dna : List Char) : Prop := ∀ c ∈ dna, c ∈ baseKeys

instance (dna : List Char) : Decidable (Cleaned dna) := by
  unfold Cleaned; infer_instance

/-! ## Lemmas about `clean_dna` and `base_counts_and_stats` -/

theorem clean_dna_cleaned (raw : List Char) : Cleaned (clean_dna raw) := by
  intro c hc
  have := (List.mem_filter.mp hc).2
  simpa using this

theorem toUpper_of_baseKey {c : Char} (h : c ∈ baseKeys) : c.toUpper = c := by
  simp only [baseKeys, List.mem_cons, List.not_mem_nil, or_false] at h
  rcases h with rfl | rfl | rfl | rfl <;> decide

/-- On a cleaned sequence, the four per-base counts sum to the length. -/
theorem count_four_eq_length (S : List Char) (h : Cleaned S) :
    S.count 'A' + S.count 'T' + S.count 'C' + S.count 'G' = S.length := by
  induction S with
  | nil => rfl
  | cons c t ih =>
      have hc : c ∈ baseKeys := h c (List.mem_cons_self c t)
      have ht : Cleaned t := fun x hx => h x (List.mem_cons_of_mem c hx)
      have ihx := ih ht
      simp only [baseKeys, List.mem_cons, List.not_mem_nil, or_false] at hc
      rcases hc with rfl | rfl | rfl | rfl <;>
        simp [List.count_cons] <;> omega

/-! ## Claim theorems: cleaner and composition statistics -/

/-- C8: `clean_dna` output is a subsequence of the uppercased input made of
exactly the valid characters: it is a sublist of the uppercased input, all
of its characters are among `{A,T,C,G}`, and it retains every occurrence
of a valid character of the uppercased input (so only characters that do
not case-fold into the alphabet are omitted, and relative order is
preserved); being a total function it raises no error on any input. -/
theorem c8_cleaner_exact_subsequence (raw : List Char) :
    List.Sublist (clean_dna raw) (raw.map Char.toUpper)
  ∧ (∀ c ∈ clean_dna raw, c ∈ baseKeys)
  ∧ (∀ c ∈ baseKeys, (clean_dna raw).count c = (raw.map Char.toUpper).count c) := by
  refine ⟨List.filter_sublist _, clean_dna_cleaned raw, ?_⟩
  intro c hc
  unfold clean_dna
  rw [List.count_filter]
  simp [hc]

/-- Witness for C8 at the concrete input `"x>aT 7g"`. -/
theorem c8_cleaner_exact_subsequence_witness :
    List.Sublist (clean_dna "x>aT 7g".toList) ("x>aT 7g".toList.map Char.toUpper) ∧
      'A' ∈ baseKeys ∧ (clean_dna "x>aT 7g".toList).count 'A'
        = ("x>aT 7g".toList.map Char.toUpper).count 'A' :=
  ⟨(c8_cleaner_exact_subsequence _).1, by decide,
    (c8_cleaner_exact_subsequence _).2.2 'A' (by decide)⟩

/-- Cleaning a sequence that is already clean returns it unchanged. -/
theorem clean_dna_of_cleaned (L : List Char) (h : Cleaned L) : clean_dna L = L := by
  unfold clean_dna
  have hmap : L.map Char.toUpper = L.map id :=
    List.map_congr_left (fun c hc => toUpper_of_baseKey (h c hc))
  rw [hmap, List.map_id]
  apply List.filter_eq_self.mpr
  intro c hc
  exact decide_eq_true (h c hc)

/-- C9: `clean_dna` is idempotent. -/
theorem c9_cleaner_idempotent (raw : List Char) :
    clean_dna (clean_dna raw) = clean_dna raw :=
  clean_dna_of_cleaned (clean_dna raw) (clean_dna_cleaned raw)

/-- C5 (amended): on a cleaned sequence the four counts sum to the length;
for nonempty input `gc_percent + at_percent = 100` holds in exact rational
arithmetic (the idealization of the code's float arithmetic); and
`mw_da = L * 330`, `mw_kda = mw_da / 1000` (both `0` for the empty
sequence). -/
theorem c5_composition_stats (S : List Char) (hS : Cleaned S) :
    (base_counts_and_stats S).counts 'A' + (base_counts_and_stats S).counts 'T'
        + (base_counts_and_stats S).counts 'C' + (base_counts_and_stats S).counts 'G'
      = S.length
  ∧ (S ≠ [] →
      (base_counts_and_stats S).gc_percent + (base_counts_and_stats S).at_percent = 100)
  ∧ (base_counts_and_stats S).mw_da = (S.length : ℚ) * 330
  ∧ (base_counts_and_stats S).mw_kda = (base_counts_and_stats S).mw_da / 1000 := by
  refine ⟨count_four_eq_length S hS, ?_, by simp [base_counts_and_stats, AVG_NT_DA], rfl⟩
  intro hne
  have hsum := count_four_eq_length S hS
  have hsumQ : ((S.count 'A' : ℚ) + (S.count 'T' : ℚ) + (S.count 'C' : ℚ)
      + (S.count 'G' : ℚ)) = (S.length : ℚ) := by exact_mod_cast hsum
  have hlen : S.length ≠ 0 := by
    cases S with
    | nil => exact absurd rfl hne
    | cons a t => simp
  simp only [base_counts_and_stats, List.isEmpty_iff, if_neg hne]
  have hL : (S.length : ℚ) ≠ 0 := by exact_mod_cast hlen
  field_simp
  linarith

/-- Witness for C5's amended theorem at the concrete cleaned input
`"GATC"`. -/
theorem c5_composition_stats_witness :
    (base_counts_and_stats "GATC".toList).gc_percent
      + (base_counts_and_stats "GATC".toList).at_percent = 100 :=
  (c5_composition_stats "GATC".toList (by decide)).2.1 (by simp)

/-- C6: the AT:GC ratio is the exact quotient when the GC count is
positive, and is the infinity sentinel (modelled by `none`) exactly when
the GC count is zero — including on the empty sequence — always returned
as a value, never as an error. -/
theorem c6_at_gc_ratio_sentinel (S : List Char) :
    (0 < S.count 'G' + S.count 'C' →
      (base_counts_and_stats S).at_gc_ratio
        = some (((S.count 'A' + S.count 'T' : Nat) : ℚ)
            / ((S.count 'G' + S.count 'C' : Nat) : ℚ)))
  ∧ ((base_counts_and_stats S).at_gc_ratio = none ↔ S.count 'G' + S.count 'C' = 0) := by
  have hratio : (base_counts_and_stats S).at_gc_ratio
      = if 0 < S.count 'G' + S.count 'C'
        then some (((S.count 'A' + S.count 'T' : Nat) : ℚ)
            / ((S.count 'G' + S.count 'C' : Nat) : ℚ))
        else none := by
    simp only [base_counts_and_stats]
  constructor
  · intro hgc
    rw [hratio, if_pos hgc]
  · rw [hratio]
    by_cases hgc : 0 < S.count 'G' + S.count 'C'
    · rw [if_pos hgc]
      constructor
      · intro hsome
        exact absurd hsome (Option.some_ne_none _)
      · intro hz
        exact absurd hz (by omega)
    · rw [if_neg hgc]
      constructor
      · intro _
        omega
      · intro _
        rfl

/-- Witness for C6: the positive-GC case at `"GAT"` and the sentinel case
at the empty sequence. -/
theorem c6_at_gc_ratio_sentinel_witness :
    (base_counts_and_stats "GAT".toList).at_gc_ratio
      = some ((("GAT".toList.count 'A' + "GAT".toList.count 'T' : Nat) : ℚ)
          / (("GAT".toList.count 'G' + "GAT".toList.count 'C' : Nat) : ℚ))
  ∧ ((base_counts_and_stats ([] : List Char)).at_gc_ratio = none ↔
      ([] : List Char).count 'G' + ([] : List Char).count 'C' = 0) :=
  ⟨(c6_at_gc_ratio_sentinel "GAT".toList).1 (by decide),
    (c6_at_gc_ratio_sentinel []).2⟩

/-- `findFrom` on the empty sequence fails for a nonempty pattern. -/
theorem findFrom_nil (pat : List Char) (s : Nat) (hp : pat ≠ []) :
    findFrom [] pat s = none := by
  rw [findFrom]
  have hlen : 0 < pat.length := List.length_pos.mpr hp
  have : ¬(s + pat.length ≤ ([] : List Char).length) := by
    simp only [List.length_nil]
    omega
  rw [if_neg this]

/-- `scanMotif` on the empty sequence returns nothing for a nonempty
pattern. -/
theorem scanMotif_nil (pat : List Char) (mean : String) (hp : pat ≠ []) :
    scanMotif [] pat mean 0 = [] := by
  rw [scanMotif]
  rw [findFrom_nil pat 0 hp]

/-- `foundEntries` on the empty sequence is empty when every motif in the
table is nonempty. -/
theorem foundEntries_nil (motifs : List (List Char × String))
    (h : ∀ mm ∈ motifs, mm.1 ≠ []) : foundEntries [] motifs = [] := by
  induction motifs with
  | nil => rfl
  | cons mm t ih =>
      have h1 : mm.1 ≠ [] := h mm (List.mem_cons_self mm t)
      have h2 : ∀ x ∈ t, x.1 ≠ [] := fun x hx => h x (List.mem_cons_of_mem mm hx)
      simp only [foundEntries, List.map_cons, List.flatten_cons] at ih ⊢
      rw [scanMotif_nil mm.1 mm.2 h1, ih h2, List.nil_append]

/-- C7: every core operation returns a normal degenerate result on the
empty sequence: `total = 0`, `gc_percent = 0` (the divisor is the `L = 1`
guard), the ratio is the infinity sentinel, and both the motif scan (over
the fixed table) and the ORF scan return empty lists. -/
theorem c7_empty_sequence_degenerate :
    (base_counts_and_stats []).total = 0
  ∧ (base_counts_and_stats []).gc_percent = 0
  ∧ (base_counts_and_stats []).at_gc_ratio = none
  ∧ find_motifs [] DNA_MEANINGS = []
  ∧ find_orfs_all_frames [] = [] := by
  refine ⟨rfl, by simp [base_counts_and_stats], by simp [base_counts_and_stats], ?_, ?_⟩
  · rw [find_motifs, foundEntries_nil DNA_MEANINGS (by decide)]
    rfl
  · simp [find_orfs_all_frames, orfScan]

/-! ## Lemmas about the motif scanner -/

/-- `findFrom` only returns match positions. -/
theorem findFrom_matchAt (dna pat : List Char) (s idx : Nat)
    (h : findFrom dna pat s = some idx) : matchAt dna pat idx := by
  induction s using findFrom.induct dna pat with
  | case1 s hle heq =>
      rw [findFrom, if_pos hle, if_pos heq] at h
      cases h
      exact ⟨hle, heq⟩
  | case2 s hle heq ih =>
      rw [findFrom, if_pos hle, if_neg heq] at h
      exact ih h
  | case3 s hle =>
      rw [findFrom, if_neg hle] at h
      cases h

/-- `findFrom` returns the least match position `≥ start`. -/
theorem findFrom_min (dna pat : List Char) (s idx : Nat)
    (h : findFrom dna pat s = some idx) :
    ∀ t, s ≤ t → t < idx → ¬ matchAt dna pat t := by
  induction s using findFrom.induct dna pat with
  | case1 s hle heq =>
      rw [findFrom, if_pos hle, if_pos heq] at h
      cases h
      intro t h1 h2
      omega
  | case2 s hle heq ih =>
      rw [findFrom, if_pos hle, if_neg heq] at h
      intro t h1 h2 hm
      rcases Nat.eq_or_lt_of_le h1 with rfl | hlt
      · exact heq hm.2
      · exact ih h t hlt h2 hm
  | case3 s hle =>
      rw [findFrom, if_neg hle] at h
      cases h

/-- When `findFrom` fails there is no match at or after the start. -/
theorem findFrom_none (dna pat : List Char) (s : Nat)
    (h : findFrom dna pat s = none) :
    ∀ t, s ≤ t → ¬ matchAt dna pat t := by
  induction s using findFrom.induct dna pat with
  | case1 s hle heq => rw [findFrom, if_pos hle, if_pos heq] at h; cases h
  | case2 s hle heq ih =>
      rw [findFrom, if_pos hle, if_neg heq] at h
      intro t h1 hm
      rcases Nat.eq_or_lt_of_le h1 with rfl | hlt
      · exact heq hm.2
      · exact ih h t hlt hm
  | case3 s hle =>
      intro t h1 hm
      exact hle (le_trans (by omega) hm.1)

/-- When a match exists at or after the start, `findFrom` succeeds and
returns a position no later than that match. -/
theorem findFrom_complete (dna pat : List Char) (s k : Nat)
    (hs : s ≤ k) (hm : matchAt dna pat k) :
    ∃ idx, findFrom dna pat s = some idx ∧ idx ≤ k := by
  cases h : findFrom dna pat s with
  | none => exact absurd hm (findFrom_none dna pat s h k hs)
  | some idx =>
      refine ⟨idx, rfl, ?_⟩
      by_contra hlt
      exact findFrom_min dna pat s idx h k hs (by omega) hm

/-- Membership in a motif scan: exactly the matches at or after the
starting index, reported 1-based with the motif and its meaning. -/
theorem scanMotif_mem (dna pat : List Char) (mean : String) (s : Nat)
    (e : MotifEntry) :
    e ∈ scanMotif dna pat mean s ↔
      ∃ k, s ≤ k ∧ matchAt dna pat k ∧ e = ⟨pat, k + 1, mean⟩ := by
  induction s using scanMotif.induct dna pat mean with
  | case1 s hnone =>
      rw [scanMotif]
      rw [hnone]
      simp only [List.not_mem_nil, false_iff]
      rintro ⟨k, hk, hm, rfl⟩
      exact findFrom_none dna pat s hnone k hk hm
  | case2 s idx hsome ih =>
      rw [scanMotif]
      rw [hsome]
      simp only [List.mem_cons, ih]
      constructor
      · rintro (rfl | ⟨k, hk, hm, rfl⟩)
        · exact ⟨idx, (findFrom_bounds dna pat s idx hsome).1,
            findFrom_matchAt dna pat s idx hsome, rfl⟩
        · have hb := (findFrom_bounds dna pat s idx hsome).1
          exact ⟨k, by omega, hm, rfl⟩
      · rintro ⟨k, hk, hm, rfl⟩
        rcases Nat.lt_or_ge k (idx + 1) with hlt | hge
        · rcases Nat.eq_or_lt_of_le (Nat.lt_succ_iff.mp hlt) with rfl | hlt2
          · exact Or.inl rfl
          · exact absurd hm (findFrom_min dna pat s idx hsome k hk hlt2)
        · exact Or.inr ⟨k, hge, hm, rfl⟩

/-- Starts of the entries of one motif scan are strictly increasing. -/
theorem scanMotif_pairwise (dna pat : List Char) (mean : String) (s : Nat) :
    (scanMotif dna pat mean s).Pairwise (fun a b => a.start < b.start) := by
  induction s using scanMotif.induct dna pat mean with
  | case1 s hnone =>
      rw [scanMotif]
      rw [hnone]
      exact List.Pairwise.nil
  | case2 s idx hsome ih =>
      rw [scanMotif]
      rw [hsome]
      refine List.Pairwise.cons ?_ ih
      intro b hb
      rcases (scanMotif_mem dna pat mean (idx + 1) b).mp hb with ⟨k, hk, _, rfl⟩
      show idx + 1 < k + 1
      omega

/-- The entries of one motif scan are pairwise distinct. -/
theorem scanMotif_nodup (dna pat : List Char) (mean : String) (s : Nat) :
    (scanMotif dna pat mean s).Nodup :=
  (scanMotif_pairwise dna pat mean s).imp fun h => by
    intro heq
    rw [heq] at h
    omega

/-- Every entry of the pre-sort `found` list comes from a table motif
matching at its reported (1-based) position. -/
theorem mem_foundEntries (dna : List Char) (motifs : List (List Char × String))
    (e : MotifEntry) :
    e ∈ foundEntries dna motifs ↔
      ∃ mm, mm ∈ motifs ∧ ∃ k, matchAt dna mm.1 k ∧ e = ⟨mm.1, k + 1, mm.2⟩ := by
  unfold foundEntries
  rw [List.mem_flatten]
  constructor
  · rintro ⟨l, hl, hel⟩
    rcases List.mem_map.mp hl with ⟨mm, hmm, rfl⟩
    rcases (scanMotif_mem dna mm.1 mm.2 0 e).mp hel with ⟨k, _, hm, rfl⟩
    exact ⟨mm, hmm, k, hm, rfl⟩
  · rintro ⟨mm, hmm, k, hm, rfl⟩
    refine ⟨scanMotif dna mm.1 mm.2 0, List.mem_map.mpr ⟨mm, hmm, rfl⟩, ?_⟩
    exact (scanMotif_mem dna mm.1 mm.2 0 _).mpr ⟨k, Nat.zero_le k, hm, rfl⟩

/-- In the pre-sort `found` list, an entry for a table motif at a match
position occurs exactly once (the table keys being distinct). -/
theorem count_foundEntries (dna : List Char) (motifs : List (List Char × String))
    (hnd : (motifs.map Prod.fst).Nodup) (m : List Char) (mean : String) (k : Nat)
    (hm : (m, mean) ∈ motifs) (hk : matchAt dna m k) :
    (foundEntries dna motifs).count ⟨m, k + 1, mean⟩ = 1 := by
  induction motifs with
  | nil => cases hm
  | cons mm t ih =>
      have hcount : foundEntries dna (mm :: t)
          = scanMotif dna mm.1 mm.2 0 ++ foundEntries dna t := by
        simp [foundEntries]
      rw [hcount, List.count_append]
      rw [List.map_cons, List.nodup_cons] at hnd
      rcases List.mem_cons.mp hm with heq | hmt
      · have hm1 : mm.1 = m := by rw [← heq]
        have hm2 : mm.2 = mean := by rw [← heq]
        subst hm1 hm2
        have h1 : (scanMotif dna mm.1 mm.2 0).count ⟨mm.1, k + 1, mm.2⟩ = 1 :=
          List.count_eq_one_of_mem (scanMotif_nodup dna mm.1 mm.2 0)
            ((scanMotif_mem dna mm.1 mm.2 0 _).mpr ⟨k, Nat.zero_le k, hk, rfl⟩)
        have h2 : (foundEntries dna t).count ⟨mm.1, k + 1, mm.2⟩ = 0 := by
          rw [List.count_eq_zero]
          intro hmem
          rcases (mem_foundEntries dna t _).mp hmem with ⟨nn, hnn, k', _, heq'⟩
          have : nn.1 = mm.1 := by
            have := congrArg MotifEntry.motif heq'
            simpa using this.symm
          exact hnd.1 (this ▸ List.mem_map.mpr ⟨nn, hnn, rfl⟩)
        omega
      · have h1 : (scanMotif dna mm.1 mm.2 0).count ⟨m, k + 1, mean⟩ = 0 := by
          rw [List.count_eq_zero]
          intro hmem
          rcases (scanMotif_mem dna mm.1 mm.2 0 _).mp hmem with ⟨k', _, _, heq'⟩
          have : mm.1 = m := by
            have := congrArg MotifEntry.motif heq'
            simpa using this.symm
          apply hnd.1
          rw [this]
          exact List.mem_map.mpr ⟨(m, mean), hmt, rfl⟩
        have h2 := ih hnd.2 hmt
        omega

/-! ## Lemmas about the stable sort by start position -/

theorem mem_insertByStart (x b : MotifEntry) (l : List MotifEntry) :
    b ∈ insertByStart x l ↔ b = x ∨ b ∈ l := by
  induction l with
  | nil => simp [insertByStart]
  | cons y ys ih =>
      by_cases hle : x.start ≤ y.start
      · simp [insertByStart, if_pos hle]
      · simp only [insertByStart, if_neg hle, List.mem_cons, ih]
        tauto

theorem insertByStart_perm (x : MotifEntry) (l : List MotifEntry) :
    (insertByStart x l).Perm (x :: l) := by
  induction l with
  | nil => exact List.Perm.refl _
  | cons y ys ih =>
      by_cases hle : x.start ≤ y.start
      · rw [insertByStart, if_pos hle]
      · rw [insertByStart, if_neg hle]
        exact (ih.cons y).trans (List.Perm.swap x y ys)

theorem sortByStart_perm (l : List MotifEntry) : (sortByStart l).Perm l := by
  induction l with
  | nil => exact List.Perm.refl _
  | cons a l ih =>
      have h1 : sortByStart (a :: l) = insertByStart a (sortByStart l) := rfl
      rw [h1]
      exact (insertByStart_perm a (sortByStart l)).trans (ih.cons a)

theorem insertByStart_sorted (x : MotifEntry) (l : List MotifEntry)
    (h : l.Sorted (fun a b => a.start ≤ b.start)) :
    (insertByStart x l).Sorted (fun a b => a.start ≤ b.start) := by
  induction l with
  | nil => simp [insertByStart]
  | cons y ys ih =>
      rcases List.sorted_cons.mp h with ⟨hy, hys⟩
      by_cases hle : x.start ≤ y.start
      · rw [insertByStart, if_pos hle]
        refine List.sorted_cons.mpr ⟨?_, h⟩
        intro b hb
        rcases List.mem_cons.mp hb with rfl | hb2
        · exact hle
        · exact le_trans hle (hy b hb2)
      · rw [insertByStart, if_neg hle]
        refine List.sorted_cons.mpr ⟨?_, ih hys⟩
        intro b hb
        rcases (mem_insertByStart x b ys).mp hb with rfl | hb2
        · omega
        · exact hy b hb2

theorem sortByStart_sorted (l : List MotifEntry) :
    (sortByStart l).Sorted (fun a b => a.start ≤ b.start) := by
  induction l with
  | nil => exact List.sorted_nil
  | cons a l ih => exact insertByStart_sorted a (sortByStart l) ih

/-- Filtering by any fixed start position commutes with the insertion
step: the inserted element lands in front of all equal-start elements. -/
theorem filter_insertByStart (x : MotifEntry) (l : List MotifEntry) (p : Nat) :
    (insertByStart x l).filter (fun e => decide (e.start = p))
      = if x.start = p then x :: l.filter (fun e => decide (e.start = p))
        else l.filter (fun e => decide (e.start = p)) := by
  induction l with
  | nil =>
      by_cases hx : x.start = p <;> simp [insertByStart, List.filter, hx]
  | cons y ys ih =>
      by_cases hle : x.start ≤ y.start
      · rw [insertByStart, if_pos hle]
        by_cases hx : x.start = p <;> simp [List.filter_cons, hx]
      · rw [insertByStart, if_neg hle]
        rw [List.filter_cons, List.filter_cons, ih]
        by_cases hx : x.start = p
        · have hy : ¬(y.start = p) := by omega
          simp [hx, hy]
        · simp [hx]

/-- The stable sort preserves the relative order of entries with equal
start positions: per-position filters agree with the pre-sort list. -/
theorem sortByStart_filter (l : List MotifEntry) (p : Nat) :
    (sortByStart l).filter (fun e => decide (e.start = p))
      = l.filter (fun e => decide (e.start = p)) := by
  induction l with
  | nil => rfl
  | cons a l ih =>
      have h1 : sortByStart (a :: l) = insertByStart a (sortByStart l) := rfl
      rw [h1, filter_insertByStart, List.filter_cons]
      by_cases ha : a.start = p <;> simp [ha, ih]

/-! ## Rewriting equations and per-position characterization -/

theorem scanMotif_eq_nil (dna pat : List Char) (mean : String) (s : Nat)
    (h : findFrom dna pat s = none) : scanMotif dna pat mean s = [] := by
  rw [scanMotif]
  split
  next => rfl
  next idx2 h2 => rw [h] at h2; cases h2

theorem scanMotif_eq_cons (dna pat : List Char) (mean : String) (s idx : Nat)
    (h : findFrom dna pat s = some idx) :
    scanMotif dna pat mean s
      = ⟨pat, idx + 1, mean⟩ :: scanMotif dna pat mean (idx + 1) := by
  rw [scanMotif]
  split
  next h2 => rw [h] at h2; cases h2
  next idx2 h2 =>
    rw [h] at h2
    injection h2 with h3
    subst h3
    rfl

theorem foundEntries_cons (dna : List Char) (mm : List Char × String)
    (t : List (List Char × String)) :
    foundEntries dna (mm :: t) = scanMotif dna mm.1 mm.2 0 ++ foundEntries dna t := by
  simp [foundEntries]

/-- Filtering a duplicate-free list on a predicate satisfied by exactly
one member yields that single member. -/
theorem filter_eq_singleton {α : Type} [DecidableEq α] (l : List α)
    (q : α → Bool) (x : α) (hx : x ∈ l) (hqx : q x = true) (hnd : l.Nodup)
    (huniq : ∀ y ∈ l, q y = true → y = x) : l.filter q = [x] := by
  induction l with
  | nil => cases hx
  | cons a t ih =>
      rw [List.nodup_cons] at hnd
      rcases List.mem_cons.mp hx with rfl | hxt
      · rw [List.filter_cons, if_pos (by simp [hqx])]
        have ht : t.filter q = [] := by
          rw [List.filter_eq_nil_iff]
          intro y hy hqy
          exact hnd.1 ((huniq y (List.mem_cons_of_mem _ hy) hqy) ▸ hy)
        rw [ht]
      · have hax : a ≠ x := fun he => hnd.1 (he ▸ hxt)
        have hqa : ¬(q a = true) := fun hqa =>
          hax (huniq a (List.mem_cons_self a t) hqa)
        rw [List.filter_cons, if_neg (by simpa using hqa)]
        exact ih hxt hnd.2 (fun y hy hqy => huniq y (List.mem_cons_of_mem a hy) hqy)

/-- One motif scan filtered at position `k + 1`: the single matching entry
when the motif matches at `k`, nothing otherwise. -/
theorem scanMotif_filter (dna pat : List Char) (mean : String) (k : Nat) :
    (scanMotif dna pat mean 0).filter (fun e => decide (e.start = k + 1))
      = if matchAt dna pat k then [⟨pat, k + 1, mean⟩] else [] := by
  by_cases hm : matchAt dna pat k
  · rw [if_pos hm]
    refine filter_eq_singleton _ _ _
      ((scanMotif_mem dna pat mean 0 _).mpr ⟨k, Nat.zero_le k, hm, rfl⟩)
      (by simp) (scanMotif_nodup dna pat mean 0) ?_
    intro y hy hqy
    rcases (scanMotif_mem dna pat mean 0 y).mp hy with ⟨k', _, _, rfl⟩
    have : k' = k := by simpa using hqy
    rw [this]
  · rw [if_neg hm, List.filter_eq_nil_iff]
    intro y hy hqy
    rcases (scanMotif_mem dna pat mean 0 y).mp hy with ⟨k', _, hm', rfl⟩
    have : k' = k := by simpa using hqy
    exact hm (this ▸ hm')

/-- The pre-sort `found` list filtered at position `k + 1` lists, in table
insertion order, one entry for each motif of the table matching at `k`. -/
theorem foundEntries_filter (dna : List Char) (tbl : List (List Char × String))
    (k : Nat) :
    (foundEntries dna tbl).filter (fun e => decide (e.start = k + 1))
      = tbl.filterMap (fun mm =>
          if matchAt dna mm.1 k then some ⟨mm.1, k + 1, mm.2⟩ else none) := by
  induction tbl with
  | nil => rfl
  | cons mm t ih =>
      rw [foundEntries_cons, List.filter_append, scanMotif_filter,
        List.filterMap_cons]
      by_cases hm : matchAt dna mm.1 k
      · simp only [if_pos hm, ih, List.cons_append, List.nil_append]
      · simp only [if_neg hm, ih, List.nil_append]

theorem count_find_motifs (dna : List Char) (motifs : List (List Char × String))
    (e : MotifEntry) :
    (find_motifs dna motifs).count e = (foundEntries dna motifs).count e :=
  (sortByStart_perm (foundEntries dna motifs)).count_eq e

theorem mem_find_motifs (dna : List Char) (motifs : List (List Char × String))
    (e : MotifEntry) :
    e ∈ find_motifs dna motifs ↔ e ∈ foundEntries dna motifs :=
  (sortByStart_perm (foundEntries dna motifs)).mem_iff

/-! ## Claim theorems: motif scanner -/

/-- C2: over the fixed motif table, the scanner reports exactly one entry
`(m, k+1, meaning)` for every match position `k` of every table motif `m`
(overlapping self-matches included, since the scan resumes one past the
previous match index) and nothing else; in particular `"AA"` on `"AAAA"`
gives positions 1, 2, 3 and `"GAATTC"` on `"GAATTCGAATTC"` gives
positions 1 and 7. -/
theorem c2_motif_occurrences :
    (∀ S m mean k, (m, mean) ∈ DNA_MEANINGS → matchAt S m k →
        (find_motifs S DNA_MEANINGS).count ⟨m, k + 1, mean⟩ = 1)
  ∧ (∀ S e, e ∈ find_motifs S DNA_MEANINGS →
        ∃ mm k, mm ∈ DNA_MEANINGS ∧ matchAt S mm.1 k ∧ e = ⟨mm.1, k + 1, mm.2⟩)
  ∧ find_motifs "AAAA".toList [("AA".toList, "x")]
      = [⟨"AA".toList, 1, "x"⟩, ⟨"AA".toList, 2, "x"⟩, ⟨"AA".toList, 3, "x"⟩]
  ∧ find_motifs "GAATTCGAATTC".toList [("GAATTC".toList, "y")]
      = [⟨"GAATTC".toList, 1, "y"⟩, ⟨"GAATTC".toList, 7, "y"⟩] := by
  refine ⟨?_, ?_, ?_, ?_⟩
  · intro S m mean k hm hk
    rw [count_find_motifs]
    exact count_foundEntries S DNA_MEANINGS (by decide) m mean k hm hk
  · intro S e he
    rcases (mem_foundEntries S DNA_MEANINGS e).mp ((mem_find_motifs S DNA_MEANINGS e).mp he)
      with ⟨mm, hmm, k, hk, rfl⟩
    exact ⟨mm, k, hmm, hk, rfl⟩
  · rw [show "AAAA".toList = ['A', 'A', 'A', 'A'] from rfl,
      show "AA".toList = ['A', 'A'] from rfl]
    rw [find_motifs, foundEntries_cons]
    rw [scanMotif_eq_cons _ _ _ 0 0 (by simp [findFrom]),
      scanMotif_eq_cons _ _ _ 1 1 (by simp [findFrom]),
      scanMotif_eq_cons _ _ _ 2 2 (by simp [findFrom]),
      scanMotif_eq_nil _ _ _ 3 (by simp [findFrom])]
    simp [foundEntries, sortByStart, insertByStart]
  · rw [show "GAATTCGAATTC".toList
        = ['G', 'A', 'A', 'T', 'T', 'C', 'G', 'A', 'A', 'T', 'T', 'C'] from rfl,
      show "GAATTC".toList = ['G', 'A', 'A', 'T', 'T', 'C'] from rfl]
    rw [find_motifs, foundEntries_cons]
    rw [scanMotif_eq_cons _ _ _ 0 0 (by simp [findFrom]),
      scanMotif_eq_cons _ _ _ 1 6 (by simp [findFrom]),
      scanMotif_eq_nil _ _ _ 7 (by simp [findFrom])]
    simp [foundEntries, sortByStart, insertByStart]

/-- Witness for C2 at the concrete sequence `"GAATTCGAATTC"` against the
fixed table: the EcoRI motif match at position 1 is reported exactly
once. -/
theorem c2_motif_occurrences_witness :
    (find_motifs "GAATTCGAATTC".toList DNA_MEANINGS).count
      ⟨"GAATTC".toList, 1, "EcoRI restriction site (GAATTC)."⟩ = 1 :=
  c2_motif_occurrences.1 "GAATTCGAATTC".toList "GAATTC".toList
    "EcoRI restriction site (GAATTC)." 0 (by decide) (by decide)

/-- C3: the scanner's result is sorted by ascending start position, equal
start positions keep discovery order (per-position filters agree with the
pre-sort `found` list), and at each position the entries appear in the
insertion order of their motifs in the table. -/
theorem c3_motifs_sorted_stable (S : List Char) (tbl : List (List Char × String)) :
    (find_motifs S tbl).Sorted (fun a b => a.start ≤ b.start)
  ∧ (∀ p, (find_motifs S tbl).filter (fun e => decide (e.start = p))
        = (foundEntries S tbl).filter (fun e => decide (e.start = p)))
  ∧ (∀ k, (find_motifs S tbl).filter (fun e => decide (e.start = k + 1))
        = tbl.filterMap (fun mm =>
            if matchAt S mm.1 k then some ⟨mm.1, k + 1, mm.2⟩ else none)) := by
  refine ⟨?_, ?_, ?_⟩
  · rw [find_motifs]
    exact sortByStart_sorted _
  · intro p
    rw [find_motifs]
    exact sortByStart_filter _ p
  · intro k
    rw [find_motifs, sortByStart_filter]
    exact foundEntries_filter S tbl k

/-! ## Lemmas about the ORF finder -/

/-- A successful stop-search returns the first in-frame stop codon at or
after the starting index, and it fits in the sequence. -/
theorem scanStop_some (dna : List Char) (j k : Nat)
    (h : scanStop dna j = some k) :
    j ≤ k ∧ (k - j) % 3 = 0 ∧ k + 3 ≤ dna.length ∧ codonAt dna k ∈ STOP_CODONS
      ∧ ∀ t, j ≤ t → t < k → (t - j) % 3 = 0 → codonAt dna t ∉ STOP_CODONS := by
  induction j using scanStop.induct dna with
  | case1 j hle hs =>
      rw [scanStop, if_pos hle, if_pos hs] at h
      cases h
      exact ⟨Nat.le_refl _, by omega, hle, hs, fun t h1 h2 _ => by omega⟩
  | case2 j hle hs ih =>
      rw [scanStop, if_pos hle, if_neg hs] at h
      obtain ⟨h1, h2, h3, h4, h5⟩ := ih h
      refine ⟨by omega, by omega, h3, h4, ?_⟩
      intro t ht1 ht2 ht3
      rcases Nat.eq_or_lt_of_le ht1 with rfl | htlt
      · exact hs
      · exact h5 t (by omega) ht2 (by omega)
  | case3 j hle =>
      rw [scanStop, if_neg hle] at h
      cases h

/-- A failed stop-search means no in-frame stop codon fits at or after the
starting index. -/
theorem scanStop_none (dna : List Char) (j : Nat)
    (h : scanStop dna j = none) :
    ∀ t, j ≤ t → (t - j) % 3 = 0 → t + 3 ≤ dna.length →
      codonAt dna t ∉ STOP_CODONS := by
  induction j using scanStop.induct dna with
  | case1 j hle hs =>
      rw [scanStop, if_pos hle, if_pos hs] at h
      cases h
  | case2 j hle hs ih =>
      rw [scanStop, if_pos hle, if_neg hs] at h
      intro t ht1 ht2 ht3
      rcases Nat.eq_or_lt_of_le ht1 with rfl | htlt
      · exact hs
      · exact ih h t (by omega) (by omega) ht3
  | case3 j hle =>
      intro t ht1 ht2 ht3 _
      exact hle (by omega)

/-- An in-frame stop codon that fits guarantees the stop-search
succeeds. -/
theorem scanStop_complete (dna : List Char) (j t : Nat)
    (h1 : j ≤ t) (h2 : (t - j) % 3 = 0) (h3 : t + 3 ≤ dna.length)
    (h4 : codonAt dna t ∈ STOP_CODONS) :
    ∃ k, scanStop dna j = some k := by
  cases h : scanStop dna j with
  | none => exact absurd h4 (scanStop_none dna j h t h1 h2 h3)
  | some k => exact ⟨k, rfl⟩

/-- Membership in one frame's scan: exactly the in-frame `ATG` positions
whose stop-search succeeds, with the emitted record fields. -/
theorem orfScan_mem (dna : List Char) (frame i : Nat) (e : ORFEntry) :
    e ∈ orfScan dna frame i ↔
      ∃ k j, i ≤ k ∧ (k - i) % 3 = 0 ∧ k + 3 ≤ dna.length
        ∧ codonAt dna k = "ATG".toList ∧ scanStop dna k = some j
        ∧ e = ⟨frame, k + 1, j + 3, (j + 3) - k, ((j + 3) - k) / 3⟩ := by
  induction i using orfScan.induct dna frame with
  | case1 i hle hatg j hstop ih =>
      rw [orfScan, if_pos hle, if_pos hatg, hstop]
      simp only [List.mem_cons, ih]
      constructor
      · rintro (rfl | ⟨k, j', hk1, hk2, hk3, hk4, hk5, rfl⟩)
        · exact ⟨i, j, Nat.le_refl i, by omega, hle, hatg, hstop, rfl⟩
        · exact ⟨k, j', by omega, by omega, hk3, hk4, hk5, rfl⟩
      · rintro ⟨k, j', hk1, hk2, hk3, hk4, hk5, rfl⟩
        rcases Nat.eq_or_lt_of_le hk1 with rfl | hklt
        · rw [hstop] at hk5
          injection hk5 with hj
          subst hj
          exact Or.inl rfl
        · have hk3' : i + 3 ≤ k := by omega
          exact Or.inr ⟨k, j', by omega, by omega, hk3, hk4, hk5, rfl⟩
  | case2 i hle hatg hstop ih =>
      rw [orfScan, if_pos hle, if_pos hatg, hstop]
      simp only [ih]
      constructor
      · rintro ⟨k, j', hk1, hk2, hk3, hk4, hk5, rfl⟩
        exact ⟨k, j', by omega, by omega, hk3, hk4, hk5, rfl⟩
      · rintro ⟨k, j', hk1, hk2, hk3, hk4, hk5, rfl⟩
        rcases Nat.eq_or_lt_of_le hk1 with rfl | hklt
        · rw [hstop] at hk5
          cases hk5
        · exact ⟨k, j', by omega, by omega, hk3, hk4, hk5, rfl⟩
  | case3 i hle hatg ih =>
      rw [orfScan, if_pos hle, if_neg hatg]
      simp only [ih]
      constructor
      · rintro ⟨k, j', hk1, hk2, hk3, hk4, hk5, rfl⟩
        exact ⟨k, j', by omega, by omega, hk3, hk4, hk5, rfl⟩
      · rintro ⟨k, j', hk1, hk2, hk3, hk4, hk5, rfl⟩
        rcases Nat.eq_or_lt_of_le hk1 with rfl | hklt
        · exact absurd hk4 hatg
        · exact ⟨k, j', by omega, by omega, hk3, hk4, hk5, rfl⟩
  | case4 i hle =>
      rw [orfScan, if_neg hle]
      simp only [List.not_mem_nil, false_iff]
      rintro ⟨k, j', hk1, hk2, hk3, hk4, hk5, rfl⟩
      exact hle (by omega)

/-- Every entry of one frame's scan carries that frame index. -/
theorem orfScan_frame (dna : List Char) (frame i : Nat) (e : ORFEntry)
    (he : e ∈ orfScan dna frame i) : e.frame = frame := by
  rcases (orfScan_mem dna frame i e).mp he with ⟨k, j, _, _, _, _, _, rfl⟩
  rfl

/-- Starts of the entries of one frame's scan are strictly increasing. -/
theorem orfScan_pairwise (dna : List Char) (frame i : Nat) :
    (orfScan dna frame i).Pairwise (fun a b => a.start < b.start) := by
  induction i using orfScan.induct dna frame with
  | case1 i hle hatg j hstop ih =>
      rw [orfScan, if_pos hle, if_pos hatg, hstop]
      refine List.Pairwise.cons ?_ ih
      intro b hb
      rcases (orfScan_mem dna frame (i + 3) b).mp hb with ⟨k, j', hk1, _, _, _, _, rfl⟩
      show i + 1 < k + 1
      omega
  | case2 i hle hatg hstop ih =>
      rw [orfScan, if_pos hle, if_pos hatg, hstop]
      exact ih
  | case3 i hle hatg ih =>
      rw [orfScan, if_pos hle, if_neg hatg]
      exact ih
  | case4 i hle =>
      rw [orfScan, if_neg hle]
      exact List.Pairwise.nil

/-- The entries of one frame's scan are pairwise distinct. -/
theorem orfScan_nodup (dna : List Char) (frame i : Nat) :
    (orfScan dna frame i).Nodup :=
  (orfScan_pairwise dna frame i).imp fun h => by
    intro heq
    rw [heq] at h
    omega

theorem mem_find_orfs (dna : List Char) (e : ORFEntry) :
    e ∈ find_orfs_all_frames dna ↔
      e ∈ orfScan dna 0 0 ∨ e ∈ orfScan dna 1 1 ∨ e ∈ orfScan dna 2 2 := by
  simp [find_orfs_all_frames, List.mem_append, or_assoc]

/-- Membership in the full scan restricted to an entry's own frame. -/
theorem mem_find_orfs_own_frame (dna : List Char) (e : ORFEntry)
    (he : e ∈ find_orfs_all_frames dna) :
    e ∈ orfScan dna e.frame e.frame := by
  rcases (mem_find_orfs dna e).mp he with h | h | h
  · rw [orfScan_frame dna 0 0 e h]; exact h
  · rw [orfScan_frame dna 1 1 e h]; exact h
  · rw [orfScan_frame dna 2 2 e h]; exact h

/-- Counting an entry in the full scan only counts its own frame's
segment. -/
theorem count_find_orfs (dna : List Char) (e : ORFEntry) (hf : e.frame < 3) :
    (find_orfs_all_frames dna).count e = (orfScan dna e.frame e.frame).count e := by
  have h0 : ∀ f, e.frame ≠ f → (orfScan dna f f).count e = 0 := by
    intro f hne
    rw [List.count_eq_zero]
    intro hmem
    exact hne (orfScan_frame dna f f e hmem)
  rw [find_orfs_all_frames, List.count_append, List.count_append]
  have h3 : e.frame = 0 ∨ e.frame = 1 ∨ e.frame = 2 := by omega
  rcases h3 with hfv | hfv | hfv <;> rw [hfv]
  · rw [h0 1 (by omega), h0 2 (by omega)]
    omega
  · rw [h0 0 (by omega), h0 2 (by omega)]
    omega
  · rw [h0 0 (by omega), h0 1 (by omega)]
    omega

/-! ## Claim theorem: ORF emission -/

/-- C1: for every in-frame `ATG` at index `i`, if `j` is the least
in-frame stop-codon index at or after `i` that fits in the sequence, the
scan emits exactly one entry `(f, i+1, j+3, (j+3)-i, ((j+3)-i)/3)` (and
no other entry of frame `f` starts at `i+1`); if no such stop exists, no
entry of frame `f` starts at `i+1`; the outer scan advances codon by
codon, so this holds for every in-frame `ATG`.  On `"ATGAAATAG"` the
result is the single entry `(0, 1, 9, 9, 3)`. -/
theorem c1_orf_emission :
    (∀ S f i j, f < 3 → i % 3 = f → i + 3 ≤ S.length →
        codonAt S i = "ATG".toList → i ≤ j → j % 3 = f → j + 3 ≤ S.length →
        codonAt S j ∈ STOP_CODONS →
        (∀ t, t < j → i ≤ t → t % 3 = f → t + 3 ≤ S.length →
          codonAt S t ∉ STOP_CODONS) →
        (find_orfs_all_frames S).count
            ⟨f, i + 1, j + 3, (j + 3) - i, ((j + 3) - i) / 3⟩ = 1
          ∧ ∀ e ∈ find_orfs_all_frames S, e.frame = f → e.start = i + 1 →
              e = ⟨f, i + 1, j + 3, (j + 3) - i, ((j + 3) - i) / 3⟩)
  ∧ (∀ S f i, f < 3 → i % 3 = f → i + 3 ≤ S.length →
        codonAt S i = "ATG".toList →
        (∀ t, i ≤ t → t % 3 = f → t + 3 ≤ S.length → codonAt S t ∉ STOP_CODONS) →
        ∀ e ∈ find_orfs_all_frames S, ¬(e.frame = f ∧ e.start = i + 1))
  ∧ find_orfs_all_frames "ATGAAATAG".toList = [⟨0, 1, 9, 9, 3⟩] := by
  refine ⟨?_, ?_, ?_⟩
  · intro S f i j hf hif hilen hatg hij hjf hjlen hjstop hjmin
    have hstop : scanStop S i = some j := by
      obtain ⟨k, hk⟩ := scanStop_complete S i j hij (by omega) hjlen hjstop
      obtain ⟨h1, h2, h3, h4, h5⟩ := scanStop_some S i k hk
      have hkj : k = j := by
        rcases Nat.lt_trichotomy k j with hlt | heq | hgt
        · exact absurd h4 (hjmin k hlt h1 (by omega) h3)
        · exact heq
        · exact absurd hjstop (h5 j hij hgt (by omega))
      rw [← hkj]
      exact hk
    have hmem : (⟨f, i + 1, j + 3, (j + 3) - i, ((j + 3) - i) / 3⟩ : ORFEntry)
        ∈ orfScan S f f :=
      (orfScan_mem S f f _).mpr ⟨i, j, by omega, by omega, hilen, hatg, hstop, rfl⟩
    constructor
    · rw [count_find_orfs S _ hf]
      exact List.count_eq_one_of_mem (orfScan_nodup S f f) hmem
    · intro e he hef hes
      have he2 := mem_find_orfs_own_frame S e he
      rw [hef] at he2
      rcases (orfScan_mem S f f e).mp he2 with ⟨k, j', _, _, _, _, hk5, rfl⟩
      have hki : k = i := by
        have : k + 1 = i + 1 := hes
        omega
      subst hki
      rw [hstop] at hk5
      injection hk5 with hjj
      rw [hjj]
  · intro S f i hf hif hilen hatg hnostop
    have hnone : scanStop S i = none := by
      cases h : scanStop S i with
      | none => rfl
      | some k =>
          obtain ⟨h1, h2, h3, h4, _⟩ := scanStop_some S i k h
          exact absurd h4 (hnostop k h1 (by omega) h3)
    rintro e he ⟨hef, hes⟩
    have he2 := mem_find_orfs_own_frame S e he
    rw [hef] at he2
    rcases (orfScan_mem S f f e).mp he2 with ⟨k, j', _, _, _, _, hk5, rfl⟩
    have hki : k = i := by
      have : k + 1 = i + 1 := hes
      omega
    subst hki
    rw [hnone] at hk5
    cases hk5
  · simp [find_orfs_all_frames, orfScan, scanStop, codonAt, STOP_CODONS]

/-- Witness for C1 on `"ATGAAATAG"`: the `ATG` at index 0 with first
in-frame stop at index 6 is reported exactly once. -/
theorem c1_orf_emission_witness :
    (find_orfs_all_frames "ATGAAATAG".toList).count ⟨0, 1, 9, 9, 3⟩ = 1 :=
  (c1_orf_emission.1 "ATGAAATAG".toList 0 0 6 (by decide) (by decide) (by decide)
    (by decide) (by decide) (by decide) (by decide) (by decide)
    (by intro t ht h0 h3 h6; interval_cases t <;> first | (exfalso; omega) | decide)).1

/-- The full scan is ordered lexicographically by `(frame, start)`:
frames appear in order 0, 1, 2 and starts increase within a frame. -/
theorem find_orfs_pairwise_lex (S : List Char) :
    (find_orfs_all_frames S).Pairwise
      (fun a b => a.frame < b.frame ∨ (a.frame = b.frame ∧ a.start < b.start)) := by
  have hscan : ∀ f i, (orfScan S f i).Pairwise
      (fun a b => a.frame < b.frame ∨ (a.frame = b.frame ∧ a.start < b.start)) := by
    intro f i
    refine (orfScan_pairwise S f i).imp_of_mem ?_
    intro a b ha hb hab
    exact Or.inr ⟨(orfScan_frame S f i a ha).trans (orfScan_frame S f i b hb).symm, hab⟩
  rw [find_orfs_all_frames]
  apply List.pairwise_append.mpr
  refine ⟨List.pairwise_append.mpr ⟨hscan 0 0, hscan 1 1, ?_⟩, hscan 2 2, ?_⟩
  · intro a ha b hb
    exact Or.inl (by rw [orfScan_frame S 0 0 a ha, orfScan_frame S 1 1 b hb]; omega)
  · intro a ha b hb
    rcases List.mem_append.mp ha with h0 | h1
    · exact Or.inl (by rw [orfScan_frame S 0 0 a h0, orfScan_frame S 2 2 b hb]; omega)
    · exact Or.inl (by rw [orfScan_frame S 1 1 a h1, orfScan_frame S 2 2 b hb]; omega)

/-! ## Lemmas about the ORF summary -/

/-- The fold of Python's `max(..., key=...)` returns the first element
attaining the maximal key: it splits the list around the result, with
everything before it strictly smaller and nothing anywhere larger. -/
theorem foldl_pickMax_spec (xs : List ORFEntry) (x : ORFEntry) :
    ∃ l₁ l₂,
      x :: xs = l₁
          ++ (xs.foldl (fun cur y => if cur.length_nt < y.length_nt then y else cur) x)
          :: l₂
      ∧ (∀ z ∈ x :: xs, z.length_nt ≤
          (xs.foldl (fun cur y => if cur.length_nt < y.length_nt then y else cur)
            x).length_nt)
      ∧ (∀ z ∈ l₁, z.length_nt <
          (xs.foldl (fun cur y => if cur.length_nt < y.length_nt then y else cur)
            x).length_nt) := by
  induction xs generalizing x with
  | nil => exact ⟨[], [], rfl, by simp, by simp⟩
  | cons y ys ih =>
      rw [List.foldl_cons]
      by_cases hxy : x.length_nt < y.length_nt
      · rw [if_pos hxy]
        obtain ⟨l₁, l₂, hdec, hmax, hlt⟩ := ih y
        refine ⟨x :: l₁, l₂, by rw [List.cons_append, ← hdec], ?_, ?_⟩
        · intro z hz
          rcases List.mem_cons.mp hz with rfl | hz2
          · exact le_of_lt (lt_of_lt_of_le hxy (hmax y (List.mem_cons_self y ys)))
          · exact hmax z hz2
        · intro z hz
          rcases List.mem_cons.mp hz with rfl | hz2
          · exact lt_of_lt_of_le hxy (hmax y (List.mem_cons_self y ys))
          · exact hlt z hz2
      · rw [if_neg hxy]
        obtain ⟨l₁, l₂, hdec, hmax, hlt⟩ := ih x
        generalize hm : List.foldl
            (fun cur y => if cur.length_nt < y.length_nt then y else cur) x ys = m
          at hdec hmax hlt ⊢
        cases l₁ with
        | nil =>
            rw [List.nil_append] at hdec
            injection hdec with hx hys
            have hxm : x.length_nt = m.length_nt := by rw [hx]
            refine ⟨[], y :: ys, ?_, ?_, ?_⟩
            · rw [List.nil_append, ← hx]
            · intro z hz
              rcases List.mem_cons.mp hz with rfl | hz2
              · exact hmax _ (List.mem_cons_self _ _)
              · rcases List.mem_cons.mp hz2 with rfl | hz3
                · omega
                · exact hmax z (List.mem_cons_of_mem _ hz3)
            · intro z hz
              exact absurd hz (List.not_mem_nil z)
        | cons a t =>
            rw [List.cons_append] at hdec
            injection hdec with hx hys
            have hxa : x.length_nt = a.length_nt := by rw [hx]
            have ham : a.length_nt < m.length_nt := hlt a (List.mem_cons_self a t)
            refine ⟨x :: y :: t, l₂, ?_, ?_, ?_⟩
            · rw [List.cons_append, List.cons_append, hys]
            · intro z hz
              rcases List.mem_cons.mp hz with rfl | hz2
              · exact hmax _ (List.mem_cons_self _ _)
              · rcases List.mem_cons.mp hz2 with rfl | hz3
                · omega
                · exact hmax z (List.mem_cons_of_mem _ hz3)
            · intro z hz
              rcases List.mem_cons.mp hz with rfl | hz2
              · omega
              · rcases List.mem_cons.mp hz2 with rfl | hz3
                · omega
                · exact hlt z (List.mem_cons_of_mem a hz3)

/-- `longestOrf` on a nonempty list: the first entry of maximal
`length_nt`. -/
theorem longestOrf_first_max (orfs : List ORFEntry) (hne : orfs ≠ []) :
    ∃ e l₁ l₂, longestOrf orfs = some e ∧ orfs = l₁ ++ e :: l₂
      ∧ (∀ z ∈ orfs, z.length_nt ≤ e.length_nt)
      ∧ (∀ z ∈ l₁, z.length_nt < e.length_nt) := by
  cases orfs with
  | nil => exact absurd rfl hne
  | cons x xs =>
      obtain ⟨l₁, l₂, hdec, hmax, hlt⟩ := foldl_pickMax_spec xs x
      exact ⟨_, l₁, l₂, rfl, hdec, hmax, hlt⟩

theorem summarize_orfs_some (orfs : List ORFEntry) (l : ORFEntry)
    (h : longestOrf orfs = some l) :
    summarize_orfs orfs
      = "Total ORFs: " ++ toString orfs.length ++ "\n"
        ++ "Longest ORF: frame " ++ toString l.frame ++ " start "
        ++ toString l.start ++ " end " ++ toString l.endPos ++ " ("
        ++ toString l.length_nt ++ " nt / " ++ toString l.length_aa ++ " aa)" := by
  rw [summarize_orfs, h]

/-! ## Claim theorems: ORF summary and entry invariants -/

/-- C4: on a nonempty ORF list the summary reports the entry of maximal
`length_nt`, ties resolved to the first entry in list order — which for
the finder's output is frame-then-position order, the list being sorted
lexicographically by `(frame, start)` — and on an empty list the summary
is the no-ORFs message. -/
theorem c4_longest_orf (S : List Char) :
    (find_orfs_all_frames S = [] →
        summarize_orfs (find_orfs_all_frames S) = "No ORFs found.")
  ∧ (find_orfs_all_frames S ≠ [] →
      ∃ e l₁ l₂, longestOrf (find_orfs_all_frames S) = some e
        ∧ summarize_orfs (find_orfs_all_frames S)
            = "Total ORFs: " ++ toString (find_orfs_all_frames S).length ++ "\n"
              ++ "Longest ORF: frame " ++ toString e.frame ++ " start "
              ++ toString e.start ++ " end " ++ toString e.endPos ++ " ("
              ++ toString e.length_nt ++ " nt / " ++ toString e.length_aa ++ " aa)"
        ∧ find_orfs_all_frames S = l₁ ++ e :: l₂
        ∧ (∀ z ∈ find_orfs_all_frames S, z.length_nt ≤ e.length_nt)
        ∧ (∀ z ∈ l₁, z.length_nt < e.length_nt))
  ∧ (find_orfs_all_frames S).Pairwise
      (fun a b => a.frame < b.frame ∨ (a.frame = b.frame ∧ a.start < b.start)) := by
  refine ⟨?_, ?_, find_orfs_pairwise_lex S⟩
  · intro h
    rw [h]
    rfl
  · intro hne
    obtain ⟨e, l₁, l₂, hsome, hdec, hmax, hlt⟩ :=
      longestOrf_first_max (find_orfs_all_frames S) hne
    exact ⟨e, l₁, l₂, hsome, summarize_orfs_some _ e hsome, hdec, hmax, hlt⟩

/-- Witness for C4 on `"ATGAAATAG"`. -/
theorem c4_longest_orf_witness :
    ∃ e l₁ l₂, longestOrf (find_orfs_all_frames "ATGAAATAG".toList) = some e
      ∧ summarize_orfs (find_orfs_all_frames "ATGAAATAG".toList)
          = "Total ORFs: "
            ++ toString (find_orfs_all_frames "ATGAAATAG".toList).length ++ "\n"
            ++ "Longest ORF: frame " ++ toString e.frame ++ " start "
            ++ toString e.start ++ " end " ++ toString e.endPos ++ " ("
            ++ toString e.length_nt ++ " nt / " ++ toString e.length_aa ++ " aa)"
      ∧ find_orfs_all_frames "ATGAAATAG".toList = l₁ ++ e :: l₂
      ∧ (∀ z ∈ find_orfs_all_frames "ATGAAATAG".toList,
          z.length_nt ≤ e.length_nt)
      ∧ (∀ z ∈ l₁, z.length_nt < e.length_nt) :=
  (c4_longest_orf "ATGAAATAG".toList).2.1
    (by simp [find_orfs_all_frames, orfScan, scanStop, codonAt, STOP_CODONS])

/-- C10: every emitted entry satisfies the coordinate and length
invariants, its start codon is `ATG`, its final codon is a stop codon,
and the output is ordered lexicographically by `(frame, start)`. -/
theorem c10_orf_entry_invariants :
    (∀ S e, e ∈ find_orfs_all_frames S →
        1 ≤ e.start ∧ e.start < e.endPos ∧ e.endPos ≤ S.length
      ∧ e.length_nt = e.endPos - e.start + 1
      ∧ e.length_nt % 3 = 0 ∧ 6 ≤ e.length_nt
      ∧ e.length_aa = e.length_nt / 3
      ∧ codonAt S (e.start - 1) = "ATG".toList
      ∧ codonAt S (e.endPos - 3) ∈ STOP_CODONS)
  ∧ ∀ S, (find_orfs_all_frames S).Pairwise
      (fun a b => a.frame < b.frame ∨ (a.frame = b.frame ∧ a.start < b.start)) := by
  refine ⟨?_, find_orfs_pairwise_lex⟩
  intro S e he
  have he2 := mem_find_orfs_own_frame S e he
  rcases (orfScan_mem S e.frame e.frame e).mp he2
    with ⟨k, j, hk1, hk2, hk3, hk4, hk5, heq⟩
  obtain ⟨h1, h2, h3, h4, _⟩ := scanStop_some S k j hk5
  have hne : j ≠ k := by
    intro hjk
    rw [hjk, hk4] at h4
    exact (by decide : "ATG".toList ∉ STOP_CODONS) h4
  have hj3 : k + 3 ≤ j := by omega
  rw [heq]
  refine ⟨by show 1 ≤ k + 1; omega, by show k + 1 < j + 3; omega,
    by show j + 3 ≤ S.length; exact h3,
    by show j + 3 - k = (j + 3) - (k + 1) + 1; omega,
    by show (j + 3 - k) % 3 = 0; omega, by show 6 ≤ j + 3 - k; omega, rfl, ?_, ?_⟩
  · show codonAt S (k + 1 - 1) = "ATG".toList
    simpa using hk4
  · show codonAt S (j + 3 - 3) ∈ STOP_CODONS
    simpa using h4

/-- Witness for C10 on `"ATGAAATAG"` and its single entry. -/
theorem c10_orf_entry_invariants_witness :
    1 ≤ (⟨0, 1, 9, 9, 3⟩ : ORFEntry).start
  ∧ (⟨0, 1, 9, 9, 3⟩ : ORFEntry).start < (⟨0, 1, 9, 9, 3⟩ : ORFEntry).endPos
  ∧ (⟨0, 1, 9, 9, 3⟩ : ORFEntry).endPos ≤ "ATGAAATAG".toList.length
  ∧ (⟨0, 1, 9, 9, 3⟩ : ORFEntry).length_nt
      = (⟨0, 1, 9, 9, 3⟩ : ORFEntry).endPos - (⟨0, 1, 9, 9, 3⟩ : ORFEntry).start + 1
  ∧ (⟨0, 1, 9, 9, 3⟩ : ORFEntry).length_nt % 3 = 0
  ∧ 6 ≤ (⟨0, 1, 9, 9, 3⟩ : ORFEntry).length_nt
  ∧ (⟨0, 1, 9, 9, 3⟩ : ORFEntry).length_aa
      = (⟨0, 1, 9, 9, 3⟩ : ORFEntry).length_nt / 3
  ∧ codonAt "ATGAAATAG".toList ((⟨0, 1, 9, 9, 3⟩ : ORFEntry).start - 1)
      = "ATG".toList
  ∧ codonAt "ATGAAATAG".toList ((⟨0, 1, 9, 9, 3⟩ : ORFEntry).endPos - 3)
      ∈ STOP_CODONS :=
  c10_orf_entry_invariants.1 "ATGAAATAG".toList ⟨0, 1, 9, 9, 3⟩
    (by simp [find_orfs_all_frames, orfScan, scanStop, codonAt, STOP_CODONS])

/-!
## Bit-exact model of IEEE-754 binary64 rounding

Python computes `gc_percent` and `at_percent` (DNA.py lines 66-67) in
IEEE-754 binary64 ("double") arithmetic, whose `/` and `*` are
correctly rounded to 53 significant bits with ties to even.  The model
below rounds an exact rational to the nearest binary64 value (valid for
nonzero magnitudes with binary exponent below 256, far beyond the values
arising here, and away from the subnormal/overflow ranges).
-/

/-- Structural `⌊log₂⌋` with explicit fuel (enough for magnitudes below
`2 ^ 256`). -/
def log2Fuel (fuel n : ℕ) : ℕ :=
  match fuel with
  | 0 => 0
  | f + 1 => if 2 ≤ n then log2Fuel f (n / 2) + 1 else 0

def nlog2 (n : ℕ) : ℕ := log2Fuel 256 n

/-- Round `nn / dd` to the nearest integer, ties to even. -/
def rnEvenInt (nn dd : ℕ) : ℕ :=
  let q := nn / dd
  let r := nn % dd
  if 2 * r < dd then q
  else if dd < 2 * r then q + 1
  else if q % 2 = 0 then q else q + 1

/-- Scale the fraction `nn / dd` by `2 ^ t`, keeping it a fraction of
naturals. -/
def flScale (nn dd : ℕ) (t : ℤ) : ℕ × ℕ :=
  if 0 ≤ t then (nn * 2 ^ t.toNat, dd) else (nn, dd * 2 ^ (-t).toNat)

/-- The scaling exponent that brings `nn / dd` into the binary64
mantissa range `[2 ^ 52, 2 ^ 53)`. -/
def flExp (nn dd : ℕ) : ℤ :=
  let l : ℤ := (nlog2 nn : ℤ) - (nlog2 dd : ℤ)
  let t0 : ℤ := 52 - l
  let p := flScale nn dd t0
  if p.1 < 2 ^ 52 * p.2 then t0 + 1 else t0

/-- The binary64 value nearest to the positive fraction `nn / dd`
(round to nearest, ties to even), as an exact rational. -/
def flRoundPos (nn dd : ℕ) : ℚ :=
  let t := flExp nn dd
  let p := flScale nn dd t
  (rnEvenInt p.1 p.2 : ℚ) * (2 : ℚ) ^ (-t)

/-- The binary64 value nearest to the rational `q`. -/
def flRound (q : ℚ) : ℚ :=
  if q = 0 then 0
  else if q < 0 then -flRoundPos q.num.natAbs q.den
  else flRoundPos q.num.natAbs q.den

/-- Binary64 division: the correctly rounded exact quotient. -/
def flDiv (a b : ℚ) : ℚ := flRound (a / b)

/-- Binary64 multiplication: the correctly rounded exact product. -/
def flMul (a b : ℚ) : ℚ := flRound (a * b)

/-- `gc_percent` of DNA.py lines 63-66 under the code's actual binary64
float semantics: `(gc / total) * 100` with each operation correctly
rounded. -/
def gc_percent_float (dna : List Char) : ℚ :=
  let totalDiv : ℚ := if dna.isEmpty then 1 else (dna.length : ℚ)
  flMul (flDiv ((dna.count 'G' + dna.count 'C' : ℕ) : ℚ) totalDiv) 100

/-- `at_percent` of DNA.py lines 63-67 under the code's actual binary64
float semantics. -/
def at_percent_float (dna : List Char) : ℚ :=
  let totalDiv : ℚ := if dna.isEmpty then 1 else (dna.length : ℚ)
  flMul (flDiv ((dna.count 'A' + dna.count 'T' : ℕ) : ℚ) totalDiv) 100

/-- Counterexample to C5's claim that `gc_percent + at_percent` equals
exactly 100 for nonempty cleaned input: on the cleaned sequence `"GAA"`
the code's float arithmetic yields
`33.33333333333333 + 66.66666666666666 = 99.99999999999999 ≠ 100`. -/
theorem c5_float_sum_counterexample :
    Cleaned (clean_dna "GAA".toList) ∧ clean_dna "GAA".toList ≠ []
  ∧ gc_percent_float (clean_dna "GAA".toList)
      + at_percent_float (clean_dna "GAA".toList) ≠ 100 := by
  have hc : clean_dna "GAA".toList = ['G', 'A', 'A'] := by decide
  refine ⟨clean_dna_cleaned _, by decide, ?_⟩
  rw [hc]
  have d13 : flDiv 1 3 = (6004799503160661 : ℚ) / 18014398509481984 := by
    rw [flDiv, flRound]
    norm_num
    simp only [flRoundPos]
    rw [show flExp 1 3 = 54 from by decide]
    rw [show flScale 1 3 54 = (18014398509481984, 3) from by decide]
    rw [show rnEvenInt 18014398509481984 3 = 6004799503160661 from by decide]
    norm_num
  have m13 : flMul ((6004799503160661 : ℚ) / 18014398509481984) 100
      = (2345624805922133 : ℚ) / 70368744177664 := by
    rw [flMul, flRound]
    norm_num
    simp only [flRoundPos]
    rw [show flExp 150119987579016525 4503599627370496 = 47 from by decide]
    rw [show flScale 150119987579016525 4503599627370496 47
        = (21127510003803822185465983795200, 4503599627370496) from by decide]
    rw [show rnEvenInt 21127510003803822185465983795200 4503599627370496
        = 4691249611844266 from by decide]
    norm_num
  have d23 : flDiv 2 3 = (6004799503160661 : ℚ) / 9007199254740992 := by
    rw [flDiv, flRound]
    norm_num
    simp only [flRoundPos]
    rw [show flExp 2 3 = 53 from by decide]
    rw [show flScale 2 3 53 = (18014398509481984, 3) from by decide]
    rw [show rnEvenInt 18014398509481984 3 = 6004799503160661 from by decide]
    norm_num
  have m23 : flMul ((6004799503160661 : ℚ) / 9007199254740992) 100
      = (2345624805922133 : ℚ) / 35184372088832 := by
    rw [flMul, flRound]
    norm_num
    simp only [flRoundPos]
    rw [show flExp 150119987579016525 2251799813685248 = 46 from by decide]
    rw [show flScale 150119987579016525 2251799813685248 46
        = (10563755001901911092732991897600, 2251799813685248) from by decide]
    rw [show rnEvenInt 10563755001901911092732991897600 2251799813685248
        = 4691249611844266 from by decide]
    norm_num
  have hg : gc_percent_float ['G', 'A', 'A']
      = (2345624805922133 : ℚ) / 70368744177664 := by
    have hcount : (List.count 'G' ['G', 'A', 'A'] + List.count 'C' ['G', 'A', 'A'] : ℕ)
        = 1 := by decide
    simp only [gc_percent_float, hcount]
    norm_num
    rw [d13, m13]
  have ha : at_percent_float ['G', 'A', 'A']
      = (2345624805922133 : ℚ) / 35184372088832 := by
    have hcount : (List.count 'A' ['G', 'A', 'A'] + List.count 'T' ['G', 'A', 'A'] : ℕ)
        = 2 := by decide
    simp only [at_percent_float, hcount]
    norm_num
    rw [d23, m23]
  rw [hg, ha]
  norm_num

end GeneMelody
